import Mathlib

/-!
Verification of the `rsb/fuelcell` command-line framework.

This file gives a shallow embedding, in Lean 4, of the data model and the
operations of the `fuelcell` Go package (command tree, resolver, flag
composer, lifecycle executor corner pieces, suggestion edit distance), and
proves or refutes the specification claims about them.

Each definition mirrors one Go function or type; the Go origin is named in
its doc comment.  Go `nil` pointers and `nil` interface values are modelled
with `Option`; Go slices with `List`; Go maps with association lists; Go
byte strings with `List Nat` (one entry per byte).  Mutation is modelled by
explicit state passing: a method that mutates its receiver returns the
updated receiver next to its result.
-/

namespace Fuelcell

/-! ## Names (cmd.go `Name`) -/

/-- `Cmd.Name`: the first word of the use line — everything up to the first
space (the whole use line when it has no space).  Go cuts at
`strings.Index(name, " ")`, a byte index; the space is ASCII, so taking
characters up to the first space is the same cut. -/
def cmdNameOf (use : String) : String :=
  String.mk (use.data.takeWhile (fun c => c ≠ ' '))

/-! ## Flag sets, as seen by the resolver

`stripFlags` only consults a flag set through `Lookup`/`ShorthandLookup`
and the `NoOptDefVal` field of the found flag, so the embedding keeps just
that view: association lists from long names and from shorthands to flags. -/

/-- The slice of a `pflag.Flag` that `stripFlags` reads. -/
structure FlagM where
  noOptDefVal : String
deriving DecidableEq

/-- The slice of a `pflag.FlagSet` that `stripFlags` reads: lookup by long
name and lookup by one-character shorthand. -/
structure FlagSetM where
  longs : List (String × FlagM)
  shorts : List (String × FlagM)
deriving DecidableEq

/-- Go `hasNoOptDefVal(name, fs)`: look the long name up; absent flags give
`false`, present ones answer whether `NoOptDefVal` is non-empty. -/
def hasNoOptDefVal (name : String) (fs : FlagSetM) : Bool :=
  match List.lookup name fs.longs with
  | none => false
  | some fl => fl.noOptDefVal ≠ ""

/-- Go `shortHasNoOptDefVal(name, fs)`: empty names give `false`, otherwise
look up the first character as a shorthand. -/
def shortHasNoOptDefVal (name : String) (fs : FlagSetM) : Bool :=
  if name.length = 0 then false
  else
    match List.lookup (name.take 1) fs.shorts with
    | none => false
    | some fl => fl.noOptDefVal ≠ ""

/-! ## stripFlags (cmd.go)

The Go loop walks the argument slice once, collecting bare tokens into
`commands`.  `break LOOP` returns what was collected so far, which the
recursion models by ending the output list. -/

/-- Go `strings.HasPrefix(s, p)`, over the characters.  Go compares bytes,
but for the needles used by `stripFlags` (`"-"` and `"--"`, ASCII) the
byte and the character readings agree on every UTF-8 string. -/
def goHasPfx (s p : String) : Bool := p.data.isPrefixOf s.data

/-- Go `strings.Contains(s, "=")`, over the characters; for the ASCII
needle `"="` the byte and the character readings agree. -/
def goContains (s : String) (c : Char) : Bool := s.data.contains c

/-- The `LOOP` of Go `stripFlags(args, c)`, over the command's merged flag
set.  Case order follows the Go `switch`: a standalone `--` breaks the
loop; a long flag (`--x`, no `=`, not marked no-operand) or a two-byte
short flag (`-x`, no `=`, not marked no-operand) consumes the following
token as its value (breaking the loop when at most one token remains); a
non-empty token that does not start with `-` is collected; anything else is
skipped.  `len(s)` counts bytes in Go, hence `utf8ByteSize`; `s[2:]` and
`s[1:]` are taken as character drops, which agrees with Go's byte slicing
after the respective prefix tests have succeeded. -/
def stripFlagsLoop (flags : FlagSetM) : List String → List String
  | [] => []
  | s :: args =>
    if s = "--" then []
    else if (goHasPfx s "--" ∧ ¬goContains s '=' ∧ hasNoOptDefVal (s.drop 2) flags = false)
        ∨ (goHasPfx s "-" ∧ ¬goContains s '=' ∧ s.utf8ByteSize = 2
            ∧ shortHasNoOptDefVal (s.drop 1) flags = false) then
      match args with
      | [] => []
      | [_] => []
      | _ :: rest => stripFlagsLoop flags rest
    else if s ≠ "" ∧ ¬goHasPfx s "-" then
      s :: stripFlagsLoop flags args
    else stripFlagsLoop flags args

/-- Go `stripFlags(args, c)`: empty input is returned as is, otherwise the
loop runs.  (The Go function first merges the command's global flags; the
merged set is the `flags` argument here.) -/
def stripFlags (args : List String) (flags : FlagSetM) : List String :=
  if args.length = 0 then args else stripFlagsLoop flags args

/-- Go `argsMinusFirstX(args, x)`: remove only the first occurrence (by
value) of `x`; when `x` does not occur the slice is returned unchanged. -/
def argsMinusFirstX (args : List String) (x : String) : List String :=
  match args with
  | [] => []
  | y :: ys => if x = y then ys else y :: argsMinusFirstX ys x

/-! ## The command tree, as seen by `Find` -/

/-- The downward view of a `Cmd` used by `Find`: use line, aliases, the
merged flag set consulted by `stripFlags`, and the owned children. -/
inductive CmdT where
  | node (use : String) (aliases : List String) (flags : FlagSetM) (children : List CmdT)

/-- Use line of a tree node. -/
def CmdT.use : CmdT → String
  | .node u _ _ _ => u

/-- Aliases of a tree node. -/
def CmdT.aliases : CmdT → List String
  | .node _ a _ _ => a

/-- Flag-set view of a tree node. -/
def CmdT.flags : CmdT → FlagSetM
  | .node _ _ f _ => f

/-- Children of a tree node. -/
def CmdT.children : CmdT → List CmdT
  | .node _ _ _ cs => cs

/-- `Cmd.Name` on the tree view. -/
def CmdT.name (c : CmdT) : String := cmdNameOf c.use

/-- Go `Cmd.HasAlias(s)`: exact-match linear scan of the aliases. -/
def CmdT.hasAlias (c : CmdT) (s : String) : Bool := c.aliases.contains s

/-- Go `Cmd.findNext(next)`: first direct child whose name or alias equals
the token.  (The Go `matches` slice is never filled, so the function is
exactly a first-match scan.) -/
def findNext (c : CmdT) (next : String) : Option CmdT :=
  c.children.find? (fun cmd => cmd.name = next ∨ cmd.hasAlias next)

/-- The recursive closure `innerFind` inside Go `Cmd.Find`: strip flags at
the current node; with no bare token left the node itself is the match;
otherwise look the first bare token up among the children and descend into
the found child with the first occurrence of that token removed from the
original (unstripped) vector. -/
def innerFind (c : CmdT) (innerArgs : List String) : CmdT × List String :=
  match hstrip : stripFlags innerArgs c.flags with
  | [] => (c, innerArgs)
  | nextSubCmd :: _ =>
    match hfind : findNext c nextSubCmd with
    | some cmd => innerFind cmd (argsMinusFirstX innerArgs nextSubCmd)
    | none => (c, innerArgs)
termination_by sizeOf c
decreasing_by
  have h1 : cmd ∈ c.children := List.mem_of_find?_eq_some hfind
  cases c with
  | node u a f cs =>
    have h2 : sizeOf cmd < sizeOf cs :=
      List.sizeOf_lt_of_mem (by simpa [CmdT.children] using h1)
    simp only [CmdT.node.sizeOf_spec]
    omega

/-! ## I/O streams (`DataStreams`, the stream accessors on `Cmd`)

Writers and readers are opaque handles; the process standard streams are
the distinguished values.  A Go `io.Writer` interface value may be `nil`,
so stream slots and accessor arguments are `Option IOWriter`. -/

/-- An `io.Writer` handle; `stdout`/`stderr` are `os.Stdout`/`os.Stderr`. -/
inductive IOWriter where
  | stdout
  | stderr
  | custom (n : Nat)
deriving DecidableEq

/-- An `io.Reader` handle; `stdin` is `os.Stdin`. -/
inductive IOReader where
  | stdin
  | customIn (n : Nat)
deriving DecidableEq

/-- `DataStreams` with the public `In`/`Out`/`Err` fields of the revisions
that define the stream accessors read by claim C5 (`In` is a reserved word
in Lean, hence `inp`). -/
structure DataStreams where
  inp : Option IOReader
  out : Option IOWriter
  err : Option IOWriter
deriving DecidableEq

/-- The `Cmd` slice holding the streams. -/
structure CmdStreams where
  streams : DataStreams
deriving DecidableEq

/-- Go `Cmd.InputStream()`: `return c.streams.In`. -/
def CmdStreams.InputStream (c : CmdStreams) : Option IOReader := c.streams.inp

/-- Go `Cmd.SetInputStream(in)`: `c.streams.In = in`. -/
def CmdStreams.SetInputStream (c : CmdStreams) (i : Option IOReader) : CmdStreams :=
  { c with streams := { c.streams with inp := i } }

/-- Go `Cmd.OutputStream()`: `return c.streams.Out`. -/
def CmdStreams.OutputStream (c : CmdStreams) : Option IOWriter := c.streams.out

/-- Go `Cmd.SetOutputStream(out)`: `c.streams.Out = out`. -/
def CmdStreams.SetOutputStream (c : CmdStreams) (o : Option IOWriter) : CmdStreams :=
  { c with streams := { c.streams with out := o } }

/-- Go `Cmd.ErrorStream()` as written in the sources cited by claim C5:
`return c.streams.Out` — the body reads the OUT field, not `Err`. -/
def CmdStreams.ErrorStream (c : CmdStreams) : Option IOWriter := c.streams.out

/-- Go `Cmd.SetErrorStream(e)`: `c.streams.Err = e`. -/
def CmdStreams.SetErrorStream (c : CmdStreams) (e : Option IOWriter) : CmdStreams :=
  { c with streams := { c.streams with err := e } }

/-! ## The global-pre-run walk inside `Cmd.execute` -/

/-- A lifecycle hook (`CLIRun`): takes the resolved node (as an id) and the
flag-stripped arguments, returns `some` error message or `none`. -/
def CLIRunM : Type := Nat → List String → Option String

/-- The lifecycle slice consulted by the global-pre-run walk. -/
structure LifecycleM where
  globalPreRun : Option CLIRunM

/-- The walk `for p := c; p != nil; p = p.Parent()` inside `Cmd.execute`:
the chain lists the resolved node first, then its ancestors bottom-up.  At
the first link declaring a `GlobalPreRun` hook, the hook is invoked once
with the resolved node `c` and the flag-stripped arguments, and the walk
breaks.  The outer `some` records that an invocation happened; its payload
is the hook's own result. -/
def globalPreRunWalk (chain : List LifecycleM) (c : Nat) (args : List String) :
    Option (Option String) :=
  match chain with
  | [] => none
  | p :: rest =>
    match p.globalPreRun with
    | some hook => some (hook c args)
    | none => globalPreRunWalk rest c args

/-! ## validateRequiredFlags (cmd.go) -/

/-- The annotation key `BashCompOneRequiredFlag`. -/
def BashCompOneRequiredFlag : String :=
  "fuelcell_annotation_bash_completion_one_required_flag"

/-- The slice of a `pflag.Flag` that `validateRequiredFlags` reads: name,
string-keyed annotations, and the `Changed` (explicitly set) bit. -/
structure PFlag where
  name : String
  annotations : List (String × List String)
  changed : Bool
deriving DecidableEq

/-- The body of the `VisitAll` closure in Go `validateRequiredFlags`: when
the required-flag annotation is absent the closure returns without
collecting; when it is present Go indexes `requiredAnnotation[0]`, which
PANICS on a present-but-empty slice — `none` models that panic; otherwise
`some b` says whether the flag is collected as missing (first value
`"true"` and not explicitly set). -/
def requiredUnset (f : PFlag) : Option Bool :=
  match List.lookup BashCompOneRequiredFlag f.annotations with
  | none => some false
  | some ann =>
    match ann.head? with
    | none => none
    | some v => some ((v = "true") ∧ ¬f.changed)

/-- `requiredUnset` as a Bool test for normal (non-panicking) answers. -/
def requiredUnsetB (f : PFlag) : Bool := requiredUnset f = some true

/-- The `VisitAll` walk over the full set, in order, collecting the names
of the required-but-unset flags; `none` when the closure panics at some
visited flag (the panic aborts the whole validation). -/
def collectMissing : List PFlag → Option (List String)
  | [] => some []
  | f :: fs =>
    match requiredUnset f with
    | none => none
    | some b =>
      match collectMissing fs with
      | none => none
      | some rest => some (if b then f.name :: rest else rest)

/-- The aggregate message Go builds:
``failure.System(`required flag(s) "%s" not set`, strings.Join(missing, `","`))``. -/
def requiredFlagsMsg (missing : List String) : String :=
  "required flag(s) \"" ++ String.intercalate "\",\"" missing ++ "\" not set"

/-- Go `Cmd.validateRequiredFlags()`: `nil` when flag parsing is disabled;
otherwise visit the full flag set, collect required-but-unset flags, and
fail with one aggregate message naming all of them when any were found.
The outer `Option` is the panic channel: `none` when the `VisitAll`
closure panics, `some r` when the function returns `r`.  (`VisitAll`
iterates the set pflag keeps; the embedding's full set is the given
list.) -/
def validateRequiredFlags (disableFlagParsing : Bool) (flags : List PFlag) :
    Option (Option String) :=
  if disableFlagParsing then some none
  else
    match collectMissing flags with
    | none => none
    | some missing =>
      if missing.isEmpty then some none
      else some (some (requiredFlagsMsg missing))

/-! ## Children bookkeeping: `Commands`, `Add` and the sorted cache -/

/-- The slice of a child `Cmd` that `Commands`/`sortByName` read. -/
structure CmdC where
  use : String
deriving DecidableEq

/-- The parent-side state touched by `Add`/`Commands`: the owned children
in insertion order and the `isSortedCmds` dirty bit. -/
structure CmdP where
  commands : List CmdC
  isSortedCmds : Bool
deriving DecidableEq

/-- Lexicographic string comparison, non-strict, over the characters.  Go
compares strings byte-wise; UTF-8 byte order coincides with code-point
order, so the character reading is the same order. -/
def charListLeB : List Char → List Char → Bool
  | [], _ => true
  | _ :: _, [] => false
  | a :: as, b :: bs =>
    if a < b then true else if b < a then false else charListLeB as bs

/-- Go string order `x <= y` (the reflexive closure of the `<` used by
`sortByName.Less`). -/
def nameLeB (x y : String) : Bool := charListLeB x.data y.data

/-- The `sortByName` order on child commands: by name, ascending,
case-sensitive. -/
def cmdNameLe (a b : CmdC) : Prop :=
  nameLeB (cmdNameOf a.use) (cmdNameOf b.use) = true

instance : DecidableRel cmdNameLe :=
  fun a b => inferInstanceAs (Decidable (_ = true))

instance : IsTotal CmdC cmdNameLe :=
  ⟨by
    have key : ∀ as bs, charListLeB as bs = true ∨ charListLeB bs as = true := by
      intro as
      induction as with
      | nil => intro bs; left; rfl
      | cons a as ih =>
        intro bs
        cases bs with
        | nil => right; rfl
        | cons b bs =>
          rcases lt_trichotomy a b with hab | hab | hab
          · left
            simp [charListLeB, hab]
          · subst hab
            rcases ih bs with h | h <;>
              simp [charListLeB, lt_irrefl, h]
          · right
            simp [charListLeB, hab]
    intro a b
    exact key _ _⟩

instance : IsTrans CmdC cmdNameLe :=
  ⟨by
    have key : ∀ as bs cs, charListLeB as bs = true → charListLeB bs cs = true →
        charListLeB as cs = true := by
      intro as
      induction as with
      | nil => intro bs cs _ _; rfl
      | cons a as ih =>
        intro bs cs h1 h2
        cases bs with
        | nil => cases h1
        | cons b bs =>
          cases cs with
          | nil => cases h2
          | cons c cs =>
            rcases lt_trichotomy a b with hab | hab | hab
            · rcases lt_trichotomy b c with hbc | hbc | hbc
              · simp [charListLeB, lt_trans hab hbc]
              · subst hbc
                simp [charListLeB, hab]
              · rw [charListLeB, if_neg (lt_asymm hbc), if_pos hbc] at h2
                cases h2
            · subst hab
              rcases lt_trichotomy a c with hac | hac | hac
              · simp [charListLeB, hac]
              · subst hac
                rw [charListLeB, if_neg (lt_irrefl a), if_neg (lt_irrefl a)] at h1 h2 ⊢
                exact ih bs cs h1 h2
              · rw [charListLeB, if_neg (lt_asymm hac), if_pos hac] at h2
                cases h2
            · rw [charListLeB, if_neg (lt_asymm hab), if_pos hab] at h1
              cases h1
    intro a b c hab hbc
    exact key _ _ _ hab hbc⟩

/-- Go `sort.Sort(sortByName(...))`: denoted by a sort of the slice under
the name order.  (Go's sort is an unstable in-place quicksort; only
sortedness and being a permutation of the input are relied on anywhere, so
any correct sort denotes it.) -/
def sortCmdsByName (cmds : List CmdC) : List CmdC :=
  cmds.insertionSort cmdNameLe

/-- Go `Cmd.Commands()`: when the children are not marked sorted, sort them
in place and set `isSortedCmds`; then return the children slice.  The pair
is (returned slice, updated receiver). -/
def Commands (c : CmdP) : List CmdC × CmdP :=
  if ¬c.isSortedCmds then
    let sorted := sortCmdsByName c.commands
    (sorted, { commands := sorted, isSortedCmds := true })
  else (c.commands, c)

/-- Go `Cmd.Add(cmds...)` restricted to this state slice: append each child
and mark the list unsorted.  (Add also sets each child's parent, updates
max-length metrics, propagates the normalization function, and panics on
self-attachment; those live outside this state slice.) -/
def Add (c : CmdP) (cmds : List CmdC) : CmdP :=
  { commands := c.commands ++ cmds, isSortedCmds := false }

/-! ## Remove (cmd.go), over an id-addressed arena

`Remove` works on pointer identity, so nodes are addressed by stable ids:
the world holds the parent's id, its children id list, and the per-id node
records (spec §9 suggests exactly this arena shape). -/

/-- Per-node record: use line and parent back-reference. -/
structure CmdA where
  use : String
  parent : Option Nat
deriving DecidableEq

/-- The world around one parent command. -/
structure TreeA where
  selfId : Nat
  commands : List Nat
  nodes : Nat → CmdA

/-- Go `Cmd.Add` on the arena: set the child's parent to this command and
append its id to the children list. -/
def addA (w : TreeA) (cid : Nat) : TreeA :=
  { w with
    commands := w.commands ++ [cid]
    nodes := fun i => if i = cid then { w.nodes i with parent := some w.selfId }
             else w.nodes i }

/-- Go `Cmd.Remove(cmds...)`: the `MAIN` loop walks `c.commands`; a child
matching one of `cmds` has its parent cleared and is skipped, the others
are appended to the local `commands` slice.  The local slice is built and
then dropped — the source never assigns it back to `c.commands` — so the
children list of the receiver is returned unchanged.  (The trailing metric
recompute also iterates the unchanged `c.commands`.) -/
def removeA (w : TreeA) (cmds : List Nat) : TreeA :=
  let _survivors := w.commands.filter (fun i => ¬cmds.contains i)
  { w with
    commands := w.commands
    nodes := fun i =>
      if w.commands.contains i ∧ cmds.contains i then { w.nodes i with parent := none }
      else w.nodes i }

/-- Go `Cmd.Commands()` on the arena (sorted read of the children list);
used to state membership after `removeA`. -/
def commandsA (w : TreeA) : List Nat :=
  (w.commands).insertionSort
    (fun a b => nameLeB (cmdNameOf (w.nodes a).use) (cmdNameOf (w.nodes b).use) = true)

/-! ## The flag collections (`Flags` struct, `Cmd.Flags`, `Cmd.GlobalFlags`) -/

/-- The `Flags` struct: each `pflag.FlagSet` pointer field is a handle
carrying the name it was created with (`newFlagSet(name)`), or `none` while
unallocated; `errorBuf` records whether the shared error buffer exists. -/
structure FlagsState where
  errorBuf : Bool
  full : Option String
  global : Option String
  parentsGlobal : Option String
deriving DecidableEq

/-- Go `Flags.IsFull()` as written in the source: `return f.Global != nil`
— the body tests the GLOBAL field, not `Full`. -/
def FlagsState.IsFull (f : FlagsState) : Bool := f.global.isSome

/-- Go `Flags.IsGlobal()`: `return f.Global != nil`. -/
def FlagsState.IsGlobal (f : FlagsState) : Bool := f.global.isSome

/-- Go `Flags.LoadFullSet(name)`: allocate the full set (and the error
buffer when missing). -/
def FlagsState.LoadFullSet (f : FlagsState) (name : String) : FlagsState :=
  { f with full := some name, errorBuf := true }

/-- Go `Flags.LoadGlobalSet(name)`: allocate the global set (and the error
buffer when missing). -/
def FlagsState.LoadGlobalSet (f : FlagsState) (name : String) : FlagsState :=
  { f with global := some name, errorBuf := true }

/-- The `Cmd` slice holding the flag collections. -/
structure CmdFl where
  use : String
  flags : FlagsState
deriving DecidableEq

/-- Go `Cmd.Flags()`: when `IsFull()` is false, `LoadFullSet(c.Name())`;
then return `c.flags.Full`.  The pair is (returned set, updated command). -/
def CmdFl.Flags (c : CmdFl) : Option String × CmdFl :=
  if ¬c.flags.IsFull then
    let fl := c.flags.LoadFullSet (cmdNameOf c.use)
    (fl.full, { c with flags := fl })
  else (c.flags.full, c)

/-- Go `Cmd.GlobalFlags()`: when `IsGlobal()` is false,
`LoadGlobalSet(c.Name())`; then return `c.flags.Global`. -/
def CmdFl.GlobalFlags (c : CmdFl) : Option String × CmdFl :=
  if ¬c.flags.IsGlobal then
    let fl := c.flags.LoadGlobalSet (cmdNameOf c.use)
    (fl.global, { c with flags := fl })
  else (c.flags.global, c)

/-! ## Execute / ExecuteC (cmd.go) -/

/-- A command with its parent chain and a context slot (`context.Context`
modelled as `Option Unit`: `none` is a nil context, `some ()` stands for
any non-nil context such as `context.Background()`). -/
inductive CmdE where
  | root (ctx : Option Unit)
  | child (ctx : Option Unit) (parent : CmdE)

/-- The context slot of a node. -/
def CmdE.ctx : CmdE → Option Unit
  | .root c => c
  | .child c _ => c

/-- Go `Cmd.HasParent()`. -/
def CmdE.HasParent : CmdE → Bool
  | .root _ => false
  | .child _ _ => true

/-- Go `Cmd.Root()`: recursive walk to the parentless ancestor. -/
def CmdE.Root : CmdE → CmdE
  | .root c => .root c
  | .child _ p => p.Root

/-- Depth of the parent chain (termination measure for `ExecuteC`). -/
def CmdE.depth : CmdE → Nat
  | .root _ => 0
  | .child _ p => p.depth + 1

/-- The opening of Go `Cmd.ExecuteC`:
`if c.ctx == nil { c.ctx = context.Background() }`. -/
def CmdE.setBgIfNil : CmdE → CmdE
  | .root c => .root (if c = none then some () else c)
  | .child c p => .child (if c = none then some () else c) p

/-- Go `Cmd.ExecuteC()`: default the context, delegate to the root when
the receiver has a parent, and otherwise return `(nil, nil)` — the body
never calls `Find` or `execute`.  The result pair is the returned
`(*Cmd, error)`. -/
def ExecuteC (c : CmdE) : Option Unit × Option String :=
  if (c.setBgIfNil).HasParent then ExecuteC ((c.setBgIfNil).Root)
  else (none, none)
termination_by c.depth
decreasing_by
  have hroot : ∀ x : CmdE, x.Root.depth = 0 := by
    intro x
    induction x with
    | root c0 => rfl
    | child c0 p ih => simpa [CmdE.Root] using ih
  cases c with
  | root c0 => simp [CmdE.setBgIfNil, CmdE.HasParent] at *
  | child c0 p =>
    simp only [CmdE.setBgIfNil, hroot, CmdE.depth]
    omega

/-- Go `Cmd.Execute()`: `_, err := c.ExecuteC(); return err`. -/
def Execute (c : CmdE) : Option String := (ExecuteC c).2

/-! ## ld (fuelcell.go): Levenshtein distance

The Go function fills a `(len s + 1) × (len t + 1)` table `d`, column by
column (`j` outer, `i` inner), over the BYTES of the two strings, after
lowercasing both when `ignoreCase` is set.  The embedding carries one
column at a time; bytes are `Nat` (each `< 256`, no arithmetic is done on
them, only equality). -/

/-- The three-way minimum in Go `ld`, with its exact comparison chain:
`min := d[i-1][j]; if d[i][j-1] < min ...; if d[i-1][j-1] < min ...`. -/
def ldMin3 (up prevRow diag : Nat) : Nat :=
  let m1 := up
  let m2 := if prevRow < m1 then prevRow else m1
  if diag < m2 then diag else m2

/-- The inner loop (`i = 1..len(s)`) of Go `ld` filling column `j` below
its first entry.  At row `i`: `xs` lists `s[i-1..]`, `prev` lists
`d[i..][j-1]`, `diag = d[i-1][j-1]`, `up = d[i-1][j]`, and `b = t[j-1]`. -/
def nextColAux {α : Type} [DecidableEq α] (b : α) :
    List α → List Nat → Nat → Nat → List Nat
  | [], _, _, _ => []
  | _ :: _, [], _, _ => []
  | x :: xs, p :: ps, diag, up =>
    let cur := if x = b then diag else ldMin3 up p diag + 1
    cur :: nextColAux b xs ps p cur

/-- Column `j` of the Go table from column `j-1`: `d[0][j] = j` on top of
the inner loop. -/
def nextCol {α : Type} [DecidableEq α] (b : α) (xs : List α) (j : Nat)
    (prev : List Nat) : List Nat :=
  match prev with
  | [] => []
  | d0 :: ds => j :: nextColAux b xs ds d0 j

/-- The outer loop (`j = 1..len(t)`) of Go `ld`. -/
def ldLoop {α : Type} [DecidableEq α] (xs : List α) :
    List α → Nat → List Nat → List Nat
  | [], _, col => col
  | b :: bs, j, col => ldLoop xs bs (j + 1) (nextCol b xs j col)

/-- Go `ld` over byte lists: column 0 is `d[i][0] = i`, then the outer
loop; the result is `d[len s][len t]`, the last entry of the final
column. -/
def ldList {α : Type} [DecidableEq α] (xs ys : List α) : Nat :=
  (ldLoop xs ys 1 (List.range (xs.length + 1))).getLastD 0

/-- The UTF-8 encoding of one character, as numbers below 256. -/
def utf8BytesOfChar (c : Char) : List Nat :=
  let n := c.toNat
  if n < 0x80 then [n]
  else if n < 0x800 then [0xC0 + n / 0x40, 0x80 + n % 0x40]
  else if n < 0x10000 then
    [0xE0 + n / 0x1000, 0x80 + (n / 0x40) % 0x40, 0x80 + n % 0x40]
  else
    [0xF0 + n / 0x40000, 0x80 + (n / 0x1000) % 0x40, 0x80 + (n / 0x40) % 0x40,
      0x80 + n % 0x40]

/-- The byte sequence of a string (Go strings index as UTF-8 bytes). -/
def toBytes (s : String) : List Nat := (s.data.map utf8BytesOfChar).flatten

/-- The lowercasing Go `ld` applies when `ignoreCase` is set. -/
def lowerIf (ignoreCase : Bool) (s : String) : String :=
  if ignoreCase then s.toLower else s

/-- Go `ld(s, t, ignoreCase)`. -/
def ld (s t : String) (ignoreCase : Bool) : Nat :=
  ldList (toBytes (lowerIf ignoreCase s)) (toBytes (lowerIf ignoreCase t))

/-- Reference recursive definition of Levenshtein distance (the spec side
of claim C10): delete/insert against an empty word, else match the heads
or take the best of deletion, insertion, substitution. -/
def lev {α : Type} [DecidableEq α] : List α → List α → Nat
  | [], ys => ys.length
  | x :: xs, [] => (x :: xs).length
  | x :: xs, y :: ys =>
    if x = y then lev xs ys
    else min (min (lev xs (y :: ys)) (lev (x :: xs) ys)) (lev xs ys) + 1

/-- `lev` on reversed words; the Go table's column `j`, row `i` holds
`levR` of the length-`i` prefix of `s` and the length-`j` prefix of `t`. -/
def levR {α : Type} [DecidableEq α] (u v : List α) : Nat :=
  lev u.reverse v.reverse

/-- The specification of a table column below its first entry: the `levR`
values of the prefixes `pre ++ [x₁]`, `pre ++ [x₁, x₂]`, … against `v`. -/
def specTail {α : Type} [DecidableEq α] (v : List α) :
    List α → List α → List Nat
  | _, [] => []
  | pre, x :: rem => levR (pre ++ [x]) v :: specTail v (pre ++ [x]) rem

/-- The specification of a full table column for prefix `v` of `t`. -/
def specCol {α : Type} [DecidableEq α] (v xs : List α) : List Nat :=
  levR [] v :: specTail v [] xs

/-- Single-character edit scripts: `ES xs ys n` holds when `xs` rewrites
to `ys` with `n` single-character insertions, deletions and substitutions
(the "minimum number of edits" reading of claim C10). -/
inductive ES {α : Type} : List α → List α → Nat → Prop where
  | nil : ES [] [] 0
  | copy (a : α) {xs ys : List α} {n : Nat} : ES xs ys n → ES (a :: xs) (a :: ys) n
  | subst (a b : α) {xs ys : List α} {n : Nat} :
      ES xs ys n → ES (a :: xs) (b :: ys) (n + 1)
  | ins (b : α) {xs ys : List α} {n : Nat} : ES xs ys n → ES xs (b :: ys) (n + 1)
  | del (a : α) {xs ys : List α} {n : Nat} : ES xs ys n → ES (a :: xs) ys (n + 1)

/-! # Theorems -/

/-! ## Claim C4: tokens after a standalone `--` -/

theorem goHasPfx_dashdash_dash {t : String} (h : goHasPfx t "--" = true) :
    goHasPfx t "-" = true := by
  simp only [goHasPfx, List.isPrefixOf_iff_prefix] at h ⊢
  exact List.IsPrefix.trans (by decide) h

theorem stripFlagsLoop_cons (flags : FlagSetM) (s : String) (args : List String) :
    stripFlagsLoop flags (s :: args) =
      if s = "--" then []
      else if (goHasPfx s "--" ∧ ¬goContains s '=' ∧ hasNoOptDefVal (s.drop 2) flags = false)
          ∨ (goHasPfx s "-" ∧ ¬goContains s '=' ∧ s.utf8ByteSize = 2
              ∧ shortHasNoOptDefVal (s.drop 1) flags = false) then
        match args with
        | [] => []
        | [_] => []
        | _ :: rest => stripFlagsLoop flags rest
      else if s ≠ "" ∧ ¬goHasPfx s "-" then s :: stripFlagsLoop flags args
      else stripFlagsLoop flags args := by
  rw [stripFlagsLoop.eq_def]

theorem stripFlagsLoop_bare_prefix (flags : FlagSetM) (post : List String) :
    ∀ pre : List String, (∀ t ∈ pre, t ≠ "" ∧ goHasPfx t "-" = false) →
      stripFlagsLoop flags (pre ++ "--" :: post) = pre := by
  intro pre
  induction pre with
  | nil => intro _; rw [List.nil_append, stripFlagsLoop_cons, if_pos rfl]
  | cons t pre ih =>
    intro h
    obtain ⟨ht1, ht2⟩ := h t (List.mem_cons_self t pre)
    have hdd : t ≠ "--" := by
      intro heq
      rw [heq] at ht2
      exact absurd ht2 (by decide)
    have hlong : goHasPfx t "--" = false := by
      cases hcase : goHasPfx t "--" with
      | false => rfl
      | true => rw [goHasPfx_dashdash_dash hcase] at ht2; cases ht2
    have hc2 : ¬((goHasPfx t "--" = true ∧ ¬goContains t '=' = true
          ∧ hasNoOptDefVal (t.drop 2) flags = false)
        ∨ (goHasPfx t "-" = true ∧ ¬goContains t '=' = true ∧ t.utf8ByteSize = 2
          ∧ shortHasNoOptDefVal (t.drop 1) flags = false)) := by
      rintro (⟨h1, _⟩ | ⟨h1, _⟩)
      · rw [hlong] at h1; cases h1
      · rw [ht2] at h1; cases h1
    rw [List.cons_append, stripFlagsLoop_cons]
    rw [if_neg hdd, if_neg hc2, if_pos ⟨ht1, by simp [ht2]⟩]
    exact congrArg (t :: ·) (ih fun x hx => h x (List.mem_cons_of_mem t hx))

/-- Claim C4, counterexample: in `stripFlags`, a token after a standalone
`--` does NOT appear in the returned bare-token list — the loop breaks at
`--` and returns only what was collected before it, so the claim fails at
the vector `["--", "foo"]` with an empty flag set. -/
theorem stripFlags_after_dashdash_cex :
    stripFlags ["--", "foo"] ⟨[], []⟩ = [] ∧
      "foo" ∉ stripFlags ["--", "foo"] ⟨[], []⟩ := by
  constructor
  · rfl
  · intro h
    rw [show stripFlags ["--", "foo"] ⟨[], []⟩ = [] from rfl] at h
    cases h

/-- Claim C4 as amended: a standalone `--` STOPS the scan — every token
after it is dropped from the returned bare-token list (rather than added
to it), while the bare tokens collected before it are returned.  Stated
for rounds whose tokens before the `--` are all bare (non-empty, not
starting with `-`), so that the `--` itself is reached by the scanner. -/
theorem stripFlags_stops_at_dashdash (flags : FlagSetM) (pre post : List String)
    (h : ∀ t ∈ pre, t ≠ "" ∧ goHasPfx t "-" = false) :
    stripFlags (pre ++ "--" :: post) flags = pre := by
  rw [stripFlags, if_neg (by simp)]
  exact stripFlagsLoop_bare_prefix flags post pre h

/-- Witness for the amended claim C4 at a concrete round. -/
theorem stripFlags_stops_at_dashdash_witness :
    stripFlags ["run", "job", "--", "tail", "-v"] ⟨[], []⟩ = ["run", "job"] := by
  have := stripFlags_stops_at_dashdash ⟨[], []⟩ ["run", "job"] ["tail", "-v"]
    (by decide)
  simpa using this

/-! ## Claim C5: the error-stream accessor pair -/

/-- Claim C5, evaluated at the failing input: with the output stream set to
writer 0, assigning writer 1 through `SetErrorStream` records it in
`streams.Err`, yet `ErrorStream()` still answers writer 0 — the accessor
body reads `c.streams.Out`, so the setter does not round-trip and
`ErrorStream` is not independent of the output stream. -/
theorem errorStream_reads_out_field :
    (((CmdStreams.mk ⟨none, some (.custom 0), none⟩).SetErrorStream
        (some (.custom 1))).streams.err = some (.custom 1)) ∧
    (((CmdStreams.mk ⟨none, some (.custom 0), none⟩).SetErrorStream
        (some (.custom 1))).ErrorStream = some (.custom 0)) ∧
    (((CmdStreams.mk ⟨none, some (.custom 0), none⟩).SetErrorStream
        (some (.custom 1))).ErrorStream ≠ some (.custom 1)) := by
  refine ⟨rfl, rfl, fun h => absurd h (by decide)⟩

/-! ## Claim C6: the global-pre-run walk fires exactly the nearest hook -/

/-- Claim C6: walking the chain `node :: ancestors` inside `execute`, the
FIRST link that declares a `GlobalPreRun` hook has it invoked, once, with
the resolved node and the flag-stripped arguments, and the walk stops there
— links after it (farther ancestors) contribute nothing, as the result
does not depend on them; when no link declares a hook, none is invoked. -/
theorem globalPreRunWalk_fires_nearest :
    (∀ (pre post : List LifecycleM) (p : LifecycleM) (hook : CLIRunM)
        (c : Nat) (args : List String),
        (∀ q ∈ pre, q.globalPreRun = none) → p.globalPreRun = some hook →
        globalPreRunWalk (pre ++ p :: post) c args = some (hook c args)) ∧
    (∀ (chain : List LifecycleM) (c : Nat) (args : List String),
        (∀ q ∈ chain, q.globalPreRun = none) →
        globalPreRunWalk chain c args = none) := by
  constructor
  · intro pre post p hook c args hpre hp
    induction pre with
    | nil => simp [globalPreRunWalk, hp]
    | cons q pre ih =>
      have hq : q.globalPreRun = none := hpre q (List.mem_cons_self q pre)
      simp only [List.cons_append, globalPreRunWalk, hq]
      exact ih fun x hx => hpre x (List.mem_cons_of_mem q hx)
  · intro chain c args hall
    induction chain with
    | nil => rfl
    | cons q chain ih =>
      have hq : q.globalPreRun = none := hall q (List.mem_cons_self q chain)
      simp only [globalPreRunWalk, hq]
      exact ih fun x hx => hall x (List.mem_cons_of_mem q hx)

/-- Witness for claim C6: three links declaring hooks behind one that does
not — only the nearest declared hook fires, applied to the resolved node
`7` and arguments `["x"]`; a hookless chain fires nothing. -/
theorem globalPreRunWalk_fires_nearest_witness :
    globalPreRunWalk
        [⟨none⟩, ⟨some fun _ _ => none⟩, ⟨some fun _ _ => some "far"⟩,
          ⟨some fun _ _ => some "farther"⟩] 7 ["x"]
      = some ((fun _ _ => none : CLIRunM) 7 ["x"]) ∧
    globalPreRunWalk [⟨none⟩, ⟨none⟩] 7 ["x"] = none := by
  constructor
  · exact globalPreRunWalk_fires_nearest.1 [⟨none⟩]
      [⟨some fun _ _ => some "far"⟩, ⟨some fun _ _ => some "farther"⟩]
      ⟨some fun _ _ => none⟩ (fun _ _ => none) 7 ["x"] (by simp) rfl
  · exact globalPreRunWalk_fires_nearest.2 [⟨none⟩, ⟨none⟩] 7 ["x"] (by simp)

/-! ## Claim C8: the descent vector of `Find` -/

/-- Claim C8: when `Find`'s inner recursion matches the first bare token to
a direct child, the descent receives the original unstripped vector passed
through `argsMinusFirstX`, and `argsMinusFirstX` removes exactly the first
occurrence by value of the token — later duplicates of the same literal
text and all other elements keep their relative order — and returns the
vector unchanged when the token does not occur. -/
theorem find_descent_removes_first_occurrence :
    (∀ (l1 l2 : List String) (x : String), x ∉ l1 →
        argsMinusFirstX (l1 ++ x :: l2) x = l1 ++ l2) ∧
    (∀ (args : List String) (x : String), x ∉ args →
        argsMinusFirstX args x = args) ∧
    (∀ (c : CmdT) (innerArgs : List String) (tok : String) (rest : List String)
        (cmd : CmdT), stripFlags innerArgs c.flags = tok :: rest →
        findNext c tok = some cmd →
        innerFind c innerArgs = innerFind cmd (argsMinusFirstX innerArgs tok)) := by
  refine ⟨?_, ?_, ?_⟩
  · intro l1 l2 x hx
    induction l1 with
    | nil => simp [argsMinusFirstX]
    | cons y l1 ih =>
      have hxy : x ≠ y := fun h => hx (h ▸ List.mem_cons_self y l1)
      simp only [List.cons_append, argsMinusFirstX, if_neg hxy]
      exact congrArg (y :: ·) (ih fun h => hx (List.mem_cons_of_mem y h))
  · intro args x hx
    induction args with
    | nil => rfl
    | cons y ys ih =>
      have hxy : x ≠ y := fun h => hx (h ▸ List.mem_cons_self y ys)
      simp only [argsMinusFirstX, if_neg hxy]
      exact congrArg (y :: ·) (ih fun h => hx (List.mem_cons_of_mem y h))
  · intro c innerArgs tok rest cmd h1 h2
    rw [innerFind.eq_def]
    split
    · rename_i heq
      rw [h1] at heq
      cases heq
    · rename_i nextSub tail heq
      rw [h1] at heq
      injection heq with heq1 _
      subst heq1
      split
      · rename_i cmd2 hfind2
        rw [h2] at hfind2
        injection hfind2 with hh
        subst hh
        rfl
      · rename_i hfindnone
        rw [h2] at hfindnone
        cases hfindnone

/-- Witness for claim C8: removing the matched token `"sub"` keeps its later
duplicate; a missing token leaves the vector unchanged; and the descent at
a concrete two-level tree passes exactly the shortened vector. -/
theorem find_descent_removes_first_occurrence_witness :
    argsMinusFirstX ["sub", "a", "sub"] "sub" = ["a", "sub"] ∧
    argsMinusFirstX ["a", "b"] "zz" = ["a", "b"] ∧
    innerFind (.node "root" [] ⟨[], []⟩ [.node "sub cmdline" [] ⟨[], []⟩ []])
        ["sub", "extra"]
      = innerFind (.node "sub cmdline" [] ⟨[], []⟩ []) ["extra"] := by
  refine ⟨?_, ?_, ?_⟩
  · exact find_descent_removes_first_occurrence.1 [] ["a", "sub"] "sub" (by decide)
  · exact find_descent_removes_first_occurrence.2.1 ["a", "b"] "zz" (by decide)
  · have h := find_descent_removes_first_occurrence.2.2
      (.node "root" [] ⟨[], []⟩ [.node "sub cmdline" [] ⟨[], []⟩ []])
      ["sub", "extra"] "sub" ["extra"] (.node "sub cmdline" [] ⟨[], []⟩ [])
      (by rfl) (by rfl)
    rw [show argsMinusFirstX ["sub", "extra"] "sub" = ["extra"] from rfl] at h
    exact h

/-! ## Claim C7: validateRequiredFlags -/

theorem collectMissing_eq (flags : List PFlag)
    (hwf : ∀ f ∈ flags, requiredUnset f ≠ none) :
    collectMissing flags = some ((flags.filter requiredUnsetB).map PFlag.name) := by
  induction flags with
  | nil => rfl
  | cons f fs ih =>
    obtain ⟨b, hb⟩ : ∃ b, requiredUnset f = some b := by
      cases h : requiredUnset f with
      | none => exact absurd h (hwf f (List.mem_cons_self f fs))
      | some b => exact ⟨b, rfl⟩
    simp only [collectMissing, hb]
    rw [ih (fun x hx => hwf x (List.mem_cons_of_mem f hx))]
    cases b with
    | true => simp [List.filter_cons, requiredUnsetB, hb]
    | false => simp [List.filter_cons, requiredUnsetB, hb]

/-- Claim C7: on the inputs where the Go code does not panic — no visited
flag carries a present-but-EMPTY required annotation (`requiredAnnotation[0]`
would panic there) — `validateRequiredFlags` with flag parsing enabled
returns without panicking, and fails if and only if some flag of the full
set carries the required annotation with first value `"true"` and was not
explicitly set; on failure the single aggregate message is built from the
names of ALL such flags (every missing flag's name is in the list the
message joins); with flag parsing disabled it returns nil. -/
theorem validateRequiredFlags_spec (flags : List PFlag)
    (hwf : ∀ f ∈ flags, requiredUnset f ≠ none) :
    validateRequiredFlags true flags = some none ∧
    validateRequiredFlags false flags ≠ none ∧
    (validateRequiredFlags false flags = some none ↔
        ∀ f ∈ flags, ¬requiredUnset f = some true) ∧
    (flags.filter requiredUnsetB ≠ [] →
        validateRequiredFlags false flags =
          some (some (requiredFlagsMsg
            ((flags.filter requiredUnsetB).map PFlag.name)))) ∧
    (∀ f ∈ flags, requiredUnset f = some true →
        f.name ∈ (flags.filter requiredUnsetB).map PFlag.name) := by
  have hcm := collectMissing_eq flags hwf
  refine ⟨rfl, ?_, ?_, ?_, ?_⟩
  · simp only [validateRequiredFlags, Bool.false_eq_true, if_false, hcm]
    split <;> simp
  · simp only [validateRequiredFlags, Bool.false_eq_true, if_false, hcm]
    constructor
    · intro h f hf hreq
      by_cases he : ((flags.filter requiredUnsetB).map PFlag.name).isEmpty
      · rw [List.isEmpty_iff, List.map_eq_nil_iff] at he
        have hmem : f ∈ flags.filter requiredUnsetB :=
          List.mem_filter.mpr ⟨hf, by simp [requiredUnsetB, hreq]⟩
        rw [he] at hmem
        cases hmem
      · rw [if_neg he] at h
        simp at h
    · intro hall
      have he : flags.filter requiredUnsetB = [] := by
        rw [List.filter_eq_nil_iff]
        intro f hf
        simp only [requiredUnsetB, decide_eq_true_eq]
        exact hall f hf
      simp [he]
  · intro hne
    have he : ¬((flags.filter requiredUnsetB).map PFlag.name).isEmpty := by
      simp only [List.isEmpty_iff, List.map_eq_nil_iff]
      exact hne
    simp only [validateRequiredFlags, Bool.false_eq_true, if_false, hcm, if_neg he]
  · intro f hf hreq
    exact List.mem_map.mpr
      ⟨f, List.mem_filter.mpr ⟨hf, by simp [requiredUnsetB, hreq]⟩, rfl⟩

/-- Witness for claim C7: of two required flags only one is set — the run
fails with one aggregate message naming both missing flags (`beta` and
`delta`) — and nothing fails when parsing is disabled; at a
present-but-empty required annotation, outside the theorem's hypothesis,
the embedding keeps Go's panic. -/
theorem validateRequiredFlags_spec_witness :
    validateRequiredFlags false
        [⟨"alpha", [(BashCompOneRequiredFlag, ["true"])], true⟩,
         ⟨"beta", [(BashCompOneRequiredFlag, ["true"])], false⟩,
         ⟨"gamma", [], false⟩,
         ⟨"delta", [(BashCompOneRequiredFlag, ["true"])], false⟩]
      = some (some (requiredFlagsMsg ["beta", "delta"])) ∧
    validateRequiredFlags true
        [⟨"beta", [(BashCompOneRequiredFlag, ["true"])], false⟩] = some none ∧
    validateRequiredFlags false
        [⟨"epsilon", [(BashCompOneRequiredFlag, [])], false⟩] = none := by
  refine ⟨?_, ?_, ?_⟩
  · have h := (validateRequiredFlags_spec
        [⟨"alpha", [(BashCompOneRequiredFlag, ["true"])], true⟩,
         ⟨"beta", [(BashCompOneRequiredFlag, ["true"])], false⟩,
         ⟨"gamma", [], false⟩,
         ⟨"delta", [(BashCompOneRequiredFlag, ["true"])], false⟩]
        (by decide)).2.2.2.1 (by decide)
    exact h.trans (by decide)
  · exact (validateRequiredFlags_spec
      [⟨"beta", [(BashCompOneRequiredFlag, ["true"])], false⟩] (by decide)).1
  · rfl

/-! ## Claim C9: sorted, lazily cached children -/

/-- Claim C9: `Commands()` returns the children sorted ascending by name
(case-sensitive) as a permutation of the stored slice; when the sorted bit
is already set it returns the stored slice as is with no re-sort and no
state change; a read leaves the sorted bit set; `Add` marks the list
unsorted (the sort is lazy — not run at mutation time); and inserting
children `zeta` then `alpha` and reading yields `[alpha, zeta]`. -/
theorem commands_sorted_lazily_cached :
    (∀ c : CmdP, c.isSortedCmds = false →
        ((Commands c).1.Pairwise cmdNameLe ∧ (Commands c).1.Perm c.commands)) ∧
    (∀ c : CmdP, c.isSortedCmds = true → Commands c = (c.commands, c)) ∧
    (∀ c : CmdP, ((Commands c).2).isSortedCmds = true) ∧
    (∀ (c : CmdP) (cmds : List CmdC), (Add c cmds).isSortedCmds = false) ∧
    (Commands (Add ⟨[], true⟩ [⟨"zeta"⟩, ⟨"alpha"⟩])).1 = [⟨"alpha"⟩, ⟨"zeta"⟩] := by
  refine ⟨?_, ?_, ?_, ?_, ?_⟩
  · intro c h
    have hcond : ¬c.isSortedCmds = true := by simp [h]
    rw [Commands, if_pos hcond]
    exact ⟨List.sorted_insertionSort cmdNameLe c.commands,
      List.perm_insertionSort cmdNameLe c.commands⟩
  · intro c h
    rw [Commands, if_neg (by simp [h])]
  · intro c
    by_cases h : c.isSortedCmds = true
    · rw [Commands, if_neg (by simp [h])]
      exact h
    · rw [Commands, if_pos (by simpa using h)]
  · intro c cmds
    rfl
  · decide

/-- Witness for claim C9 at concrete states: an unsorted two-child state is
returned sorted and as a permutation; a clean state is returned untouched;
`Add` dirties the bit. -/
theorem commands_sorted_lazily_cached_witness :
    ((Commands ⟨[⟨"b c"⟩, ⟨"a d"⟩], false⟩).1.Pairwise cmdNameLe ∧
      (Commands ⟨[⟨"b c"⟩, ⟨"a d"⟩], false⟩).1.Perm [⟨"b c"⟩, ⟨"a d"⟩]) ∧
    Commands ⟨[⟨"x"⟩], true⟩ = ([⟨"x"⟩], ⟨[⟨"x"⟩], true⟩) ∧
    (Add ⟨[⟨"x"⟩], true⟩ [⟨"y"⟩]).isSortedCmds = false := by
  refine ⟨commands_sorted_lazily_cached.1 ⟨[⟨"b c"⟩, ⟨"a d"⟩], false⟩ rfl,
    commands_sorted_lazily_cached.2.1 ⟨[⟨"x"⟩], true⟩ rfl,
    commands_sorted_lazily_cached.2.2.2.1 ⟨[⟨"x"⟩], true⟩ [⟨"y"⟩]⟩

/-! ## Claim C1: Remove clears the parent but never shortens the list -/

/-- Claim C1, against the source of `Remove`: for every arena state the
children list survives `Remove` UNCHANGED (the filtered slice is built and
dropped), and at the failing input — a parent `0` with one attached child
`1`, then `Remove` of that child — the child's parent is `nil` as the claim
says, yet the child is still in the stored list and still appears in
`Commands()`, contradicting the claim's second half. -/
theorem remove_clears_parent_keeps_child :
    (∀ (w : TreeA) (cmds : List Nat), (removeA w cmds).commands = w.commands) ∧
    ((removeA (addA ⟨0, [], fun i => ⟨if i = 1 then "m" else "p", none⟩⟩ 1)
        [1]).nodes 1).parent = none ∧
    1 ∈ (removeA (addA ⟨0, [], fun i => ⟨if i = 1 then "m" else "p", none⟩⟩ 1)
        [1]).commands ∧
    1 ∈ commandsA (removeA (addA ⟨0, [], fun i => ⟨if i = 1 then "m" else "p", none⟩⟩ 1)
        [1]) ∧
    ((addA ⟨0, [], fun i => ⟨if i = 1 then "m" else "p", none⟩⟩ 1).nodes 1).parent
      = some 0 := by
  exact ⟨fun w cmds => rfl, by decide, by decide, by decide, by decide⟩

/-! ## Claim C2: Execute / ExecuteC return nothing -/

theorem ExecuteC_on_root (ctx0 : Option Unit) :
    ExecuteC (.root ctx0) = (none, none) := by
  rw [ExecuteC.eq_def]
  simp [CmdE.setBgIfNil, CmdE.HasParent]

theorem CmdE.Root_is_root (c : CmdE) : ∃ c0, c.Root = .root c0 := by
  induction c with
  | root c0 => exact ⟨c0, rfl⟩
  | child c0 p ih => simpa [CmdE.Root] using ih

/-- Claim C2: `ExecuteC` delegates parented receivers to the root, and on a
parentless receiver returns a nil command and a nil error unconditionally —
it never resolves a target or runs the lifecycle — so `ExecuteC` always
yields `(nil, nil)` and `Execute` always returns nil; the only effect is
defaulting a nil context to a background context. -/
theorem executeC_returns_nil_nil :
    (∀ c : CmdE, ExecuteC c = (none, none)) ∧
    (∀ c : CmdE, Execute c = none) ∧
    (∀ c : CmdE, c.ctx = none → (c.setBgIfNil).ctx = some ()) := by
  have hall : ∀ c : CmdE, ExecuteC c = (none, none) := by
    intro c
    cases c with
    | root c0 => exact ExecuteC_on_root c0
    | child c0 p =>
      rw [ExecuteC.eq_def]
      obtain ⟨r0, hr0⟩ := CmdE.Root_is_root p
      simp [CmdE.setBgIfNil, CmdE.HasParent, CmdE.Root, hr0, ExecuteC_on_root]
  refine ⟨hall, fun c => ?_, fun c h => ?_⟩
  · rw [Execute, hall]
  · cases c with
    | root c0 => simp [CmdE.ctx] at h; simp [CmdE.setBgIfNil, CmdE.ctx, h]
    | child c0 p => simp [CmdE.ctx] at h; simp [CmdE.setBgIfNil, CmdE.ctx, h]

/-- Witness for claim C2: a child under a root, both with nil contexts —
`ExecuteC` answers `(nil, nil)`, `Execute` answers nil, and the context
default fires. -/
theorem executeC_returns_nil_nil_witness :
    ExecuteC (.child none (.root none)) = (none, none) ∧
    Execute (.child none (.root none)) = none ∧
    ((CmdE.child none (.root none)).setBgIfNil).ctx = some () := by
  exact ⟨executeC_returns_nil_nil.1 _, executeC_returns_nil_nil.2.1 _,
    executeC_returns_nil_nil.2.2 (.child none (.root none)) rfl⟩

/-! ## Claim C3: Flags() after GlobalFlags() -/

/-- Claim C3, evaluated at the failing input: on a fresh command, calling
`Flags()` first does hand out a freshly loaded full set, but calling
`GlobalFlags()` first and then `Flags()` returns a nil set — `IsFull()`
tests `f.Global != nil`, so once the global set exists `Flags()` skips
`LoadFullSet` and returns the never-allocated `Full` field.  The flag claim
fails although `IsFull` reports `true`. -/
theorem flags_nil_after_globalFlags_first :
    ((CmdFl.mk "root sub" ⟨false, none, none, none⟩).Flags.1 = some "root") ∧
    ((((CmdFl.mk "root sub" ⟨false, none, none, none⟩).GlobalFlags.2).Flags).1
        = none) ∧
    (((CmdFl.mk "root sub" ⟨false, none, none, none⟩).GlobalFlags.2).flags.IsFull
        = true) ∧
    (((CmdFl.mk "root sub" ⟨false, none, none, none⟩).GlobalFlags.2).flags.full
        = none) := by
  exact ⟨by decide, by decide, by decide, by decide⟩

/-! ## Claim C10: ld computes the Levenshtein distance

Plan: (1) one-character Lipschitz bounds for the reference `lev`;
(2) `lev` is the minimum cost of an edit script (`ES`), in both directions;
(3) edit scripts reverse, hence `lev` is invariant under reversing both
words; (4) the Go column sweep computes `levR` (= `lev` of reversed
prefixes) by induction over the table, hence `ldList = lev`. -/

theorem lev_nil_left {α : Type} [DecidableEq α] (ys : List α) :
    lev ([] : List α) ys = ys.length := by
  cases ys <;> simp [lev]

theorem lev_nil_right {α : Type} [DecidableEq α] (xs : List α) :
    lev xs ([] : List α) = xs.length := by
  cases xs <;> simp [lev]

theorem lev_cons_cons {α : Type} [DecidableEq α] (x : α) (xs : List α) (y : α)
    (ys : List α) :
    lev (x :: xs) (y :: ys) =
      if x = y then lev xs ys
      else min (min (lev xs (y :: ys)) (lev (x :: xs) ys)) (lev xs ys) + 1 := by
  simp [lev]

theorem levLipA {α : Type} [DecidableEq α] :
    ∀ n : Nat, ∀ xs ys : List α, xs.length + ys.length ≤ n →
      ((∀ b, lev xs (b :: ys) ≤ lev xs ys + 1) ∧
        (∀ a, lev xs ys ≤ lev (a :: xs) ys + 1)) := by
  intro n
  induction n with
  | zero =>
    intro xs ys h
    have hx : xs = [] := List.eq_nil_of_length_eq_zero (by omega)
    have hy : ys = [] := List.eq_nil_of_length_eq_zero (by omega)
    subst hx; subst hy
    exact ⟨fun b => by simp [lev_nil_left],
      fun a => by simp only [lev_nil_right, List.length_cons, List.length_nil]; omega⟩
  | succ n ih =>
    intro xs ys h
    constructor
    · intro b
      cases xs with
      | nil => simp [lev_nil_left]
      | cons x xs =>
        rw [lev_cons_cons]
        by_cases hxb : x = b
        · subst hxb
          rw [if_pos rfl]
          exact (ih xs ys (by simp only [List.length_cons] at h; omega)).2 x
        · rw [if_neg hxb]
          omega
    · intro a
      cases ys with
      | nil =>
        simp only [lev_nil_right, List.length_cons, List.length_nil]
        omega
      | cons y ys =>
        rw [lev_cons_cons]
        by_cases hay : a = y
        · subst hay
          rw [if_pos rfl]
          exact (ih xs ys (by simp only [List.length_cons] at h; omega)).1 a
        · rw [if_neg hay]
          have h1 := (ih xs ys (by simp only [List.length_cons] at h; omega)).1 y
          have h2 := (ih xs ys (by simp only [List.length_cons] at h; omega)).2 a
          omega

theorem levLipB {α : Type} [DecidableEq α] :
    ∀ n : Nat, ∀ xs ys : List α, xs.length + ys.length ≤ n →
      ((∀ a, lev (a :: xs) ys ≤ lev xs ys + 1) ∧
        (∀ b, lev xs ys ≤ lev xs (b :: ys) + 1)) := by
  intro n
  induction n with
  | zero =>
    intro xs ys h
    have hx : xs = [] := List.eq_nil_of_length_eq_zero (by omega)
    have hy : ys = [] := List.eq_nil_of_length_eq_zero (by omega)
    subst hx; subst hy
    exact ⟨fun a => by simp only [lev_nil_right, List.length_cons, List.length_nil]; omega,
      fun b => by simp only [lev_nil_left, List.length_cons, List.length_nil]; omega⟩
  | succ n ih =>
    intro xs ys h
    constructor
    · intro a
      cases ys with
      | nil =>
        simp only [lev_nil_right, List.length_cons, List.length_nil]
        omega
      | cons y ys =>
        rw [lev_cons_cons]
        by_cases hay : a = y
        · subst hay
          rw [if_pos rfl]
          exact (ih xs ys (by simp only [List.length_cons] at h; omega)).2 a
        · rw [if_neg hay]
          omega
    · intro b
      cases xs with
      | nil => simp only [lev_nil_left, List.length_cons]; omega
      | cons x xs =>
        rw [lev_cons_cons]
        by_cases hxb : x = b
        · subst hxb
          rw [if_pos rfl]
          exact (ih xs ys (by simp only [List.length_cons] at h; omega)).1 x
        · rw [if_neg hxb]
          have h1 := (ih xs ys (by simp only [List.length_cons] at h; omega)).1 x
          have h2 := (ih xs ys (by simp only [List.length_cons] at h; omega)).2 b
          omega

theorem ES_nil_left {α : Type} (ys : List α) : ES ([] : List α) ys ys.length := by
  induction ys with
  | nil => exact ES.nil
  | cons y ys ih => exact ES.ins y ih

theorem ES_nil_right {α : Type} (xs : List α) : ES xs ([] : List α) xs.length := by
  induction xs with
  | nil => exact ES.nil
  | cons x xs ih => exact ES.del x ih

theorem lev_ES {α : Type} [DecidableEq α] :
    ∀ xs ys : List α, ES xs ys (lev xs ys) := by
  intro xs
  induction xs with
  | nil =>
    intro ys
    rw [lev_nil_left]
    exact ES_nil_left ys
  | cons x xs ihx =>
    intro ys
    induction ys with
    | nil =>
      rw [lev_nil_right]
      exact ES_nil_right (x :: xs)
    | cons y ys ihy =>
      rw [lev_cons_cons]
      by_cases hxy : x = y
      · subst hxy
        rw [if_pos rfl]
        exact ES.copy x (ihx ys)
      · rw [if_neg hxy]
        rcases (by omega :
            min (min (lev xs (y :: ys)) (lev (x :: xs) ys)) (lev xs ys)
                = lev xs (y :: ys) ∨
              min (min (lev xs (y :: ys)) (lev (x :: xs) ys)) (lev xs ys)
                = lev (x :: xs) ys ∨
              min (min (lev xs (y :: ys)) (lev (x :: xs) ys)) (lev xs ys)
                = lev xs ys) with hm | hm | hm
        · rw [hm]; exact ES.del x (ihx (y :: ys))
        · rw [hm]; exact ES.ins y ihy
        · rw [hm]; exact ES.subst x y (ihx ys)

theorem ES_lev_le {α : Type} [DecidableEq α] :
    ∀ {xs ys : List α} {n : Nat}, ES xs ys n → lev xs ys ≤ n := by
  intro xs ys n h
  induction h with
  | nil => simp [lev_nil_left]
  | copy a h ih =>
    rw [lev_cons_cons, if_pos rfl]
    exact ih
  | subst a b h ih =>
    by_cases hab : a = b
    · subst hab
      rw [lev_cons_cons, if_pos rfl]
      omega
    · rw [lev_cons_cons, if_neg hab]
      omega
  | ins b h ih =>
    rename_i xs2 ys2 n2
    have := (levLipA (xs2.length + ys2.length) xs2 ys2 le_rfl).1 b
    omega
  | del a h ih =>
    rename_i xs2 ys2 n2
    have := (levLipB (xs2.length + ys2.length) xs2 ys2 le_rfl).1 a
    omega

theorem ES_snoc_copy {α : Type} {xs ys : List α} {n : Nat} (a : α)
    (h : ES xs ys n) : ES (xs ++ [a]) (ys ++ [a]) n := by
  induction h with
  | nil => exact ES.copy a ES.nil
  | copy c h ih => exact ES.copy c ih
  | subst c d h ih => exact ES.subst c d ih
  | ins d h ih => exact ES.ins d ih
  | del c h ih => exact ES.del c ih

theorem ES_snoc_subst {α : Type} {xs ys : List α} {n : Nat} (a b : α)
    (h : ES xs ys n) : ES (xs ++ [a]) (ys ++ [b]) (n + 1) := by
  induction h with
  | nil => exact ES.subst a b ES.nil
  | copy c h ih => exact ES.copy c ih
  | subst c d h ih => exact ES.subst c d ih
  | ins d h ih => exact ES.ins d ih
  | del c h ih => exact ES.del c ih

theorem ES_snoc_ins {α : Type} {xs ys : List α} {n : Nat} (b : α)
    (h : ES xs ys n) : ES xs (ys ++ [b]) (n + 1) := by
  induction h with
  | nil => exact ES.ins b ES.nil
  | copy c h ih => exact ES.copy c ih
  | subst c d h ih => exact ES.subst c d ih
  | ins d h ih => exact ES.ins d ih
  | del c h ih => exact ES.del c ih

theorem ES_snoc_del {α : Type} {xs ys : List α} {n : Nat} (a : α)
    (h : ES xs ys n) : ES (xs ++ [a]) ys (n + 1) := by
  induction h with
  | nil => exact ES.del a ES.nil
  | copy c h ih => exact ES.copy c ih
  | subst c d h ih => exact ES.subst c d ih
  | ins d h ih => exact ES.ins d ih
  | del c h ih => exact ES.del c ih

theorem ES_reverse {α : Type} {xs ys : List α} {n : Nat} (h : ES xs ys n) :
    ES xs.reverse ys.reverse n := by
  induction h with
  | nil => exact ES.nil
  | copy a h ih => simpa [List.reverse_cons] using ES_snoc_copy a ih
  | subst a b h ih => simpa [List.reverse_cons] using ES_snoc_subst a b ih
  | ins b h ih => simpa [List.reverse_cons] using ES_snoc_ins b ih
  | del a h ih => simpa [List.reverse_cons] using ES_snoc_del a ih

theorem lev_reverse {α : Type} [DecidableEq α] (xs ys : List α) :
    lev xs.reverse ys.reverse = lev xs ys := by
  have h1 : lev xs.reverse ys.reverse ≤ lev xs ys :=
    ES_lev_le (ES_reverse (lev_ES xs ys))
  have h2 : lev xs ys ≤ lev xs.reverse ys.reverse := by
    have := ES_lev_le (ES_reverse (lev_ES xs.reverse ys.reverse))
    simpa using this
  omega

theorem ldMin3_eq (up prevRow diag : Nat) :
    ldMin3 up prevRow diag = min (min up prevRow) diag := by
  simp only [ldMin3]
  split_ifs <;> omega

theorem levR_nil_left {α : Type} [DecidableEq α] (v : List α) :
    levR ([] : List α) v = v.length := by
  simp [levR, lev_nil_left]

theorem levR_nil_right {α : Type} [DecidableEq α] (u : List α) :
    levR u ([] : List α) = u.length := by
  simp [levR, lev_nil_right]

theorem levR_snoc {α : Type} [DecidableEq α] (u v : List α) (a b : α) :
    levR (u ++ [a]) (v ++ [b]) =
      if a = b then levR u v
      else min (min (levR u (v ++ [b])) (levR (u ++ [a]) v)) (levR u v) + 1 := by
  simp only [levR, List.reverse_append, List.reverse_cons, List.reverse_nil,
    List.nil_append, List.singleton_append, lev_cons_cons]

theorem nextColAux_spec {α : Type} [DecidableEq α] (b : α) (v : List α) :
    ∀ rem pre : List α,
      nextColAux b rem (specTail v pre rem) (levR pre v) (levR pre (v ++ [b]))
        = specTail (v ++ [b]) pre rem := by
  intro rem
  induction rem with
  | nil => intro pre; rfl
  | cons x rem ih =>
    intro pre
    simp only [specTail, nextColAux]
    have hcur : (if x = b then levR pre v
          else ldMin3 (levR pre (v ++ [b])) (levR (pre ++ [x]) v) (levR pre v) + 1)
        = levR (pre ++ [x]) (v ++ [b]) := by
      rw [levR_snoc, ldMin3_eq]
    rw [hcur, ih (pre ++ [x])]

theorem nextCol_spec {α : Type} [DecidableEq α] (b : α) (xs v : List α) :
    nextCol b xs (v.length + 1) (specCol v xs) = specCol (v ++ [b]) xs := by
  simp only [specCol, nextCol]
  rw [show v.length + 1 = levR ([] : List α) (v ++ [b]) by
    simp [levR_nil_left]]
  rw [nextColAux_spec b v xs []]

theorem ldLoop_spec {α : Type} [DecidableEq α] (xs : List α) :
    ∀ bs v : List α, ldLoop xs bs (v.length + 1) (specCol v xs)
      = specCol (v ++ bs) xs := by
  intro bs
  induction bs with
  | nil => intro v; simp [ldLoop]
  | cons b bs ih =>
    intro v
    simp only [ldLoop]
    rw [nextCol_spec]
    have hlen : v.length + 1 + 1 = (v ++ [b]).length + 1 := by simp
    rw [hlen, ih (v ++ [b])]
    simp

theorem specTail_nil {α : Type} [DecidableEq α] :
    ∀ rem pre : List α,
      specTail ([] : List α) pre rem = List.range' (pre.length + 1) rem.length := by
  intro rem
  induction rem with
  | nil => intro pre; simp [specTail]
  | cons x rem ih =>
    intro pre
    simp only [specTail, levR_nil_right, List.length_cons, List.range']
    rw [ih (pre ++ [x])]
    simp [List.range']

theorem specCol_nil {α : Type} [DecidableEq α] (xs : List α) :
    specCol ([] : List α) xs = List.range (xs.length + 1) := by
  simp only [specCol, levR_nil_left, List.length_nil, specTail_nil]
  rw [List.range_eq_range']
  simp [List.range']

theorem specTail_getLastD {α : Type} [DecidableEq α] (v : List α) :
    ∀ rem pre : List α,
      (specTail v pre rem).getLastD (levR pre v) = levR (pre ++ rem) v := by
  intro rem
  induction rem with
  | nil => intro pre; simp [specTail]
  | cons x rem ih =>
    intro pre
    simp only [specTail, List.getLastD_cons]
    rw [ih (pre ++ [x])]
    simp

theorem ldList_eq_lev {α : Type} [DecidableEq α] (xs ys : List α) :
    ldList xs ys = lev xs ys := by
  rw [ldList, (specCol_nil xs).symm]
  have h := ldLoop_spec xs ys []
  simp only [List.length_nil, List.nil_append, Nat.zero_add] at h
  rw [h]
  simp only [specCol, List.getLastD_cons]
  rw [specTail_getLastD ys xs []]
  simp only [List.nil_append, levR, lev_reverse]

/-- Claim C10: `ld(s, t, ignoreCase)` equals the Levenshtein edit distance
between the byte sequences of `s` and `t` (both lowercased first when
`ignoreCase` is set): it agrees with the reference recursive definition
`lev`, and it is exactly the minimum number of single-character insertions,
deletions and substitutions — achieved by some edit script, and a lower
bound on the cost of every edit script. -/
theorem ld_eq_levenshtein (s t : String) (ignoreCase : Bool) :
    ld s t ignoreCase
        = lev (toBytes (lowerIf ignoreCase s)) (toBytes (lowerIf ignoreCase t)) ∧
    ES (toBytes (lowerIf ignoreCase s)) (toBytes (lowerIf ignoreCase t))
        (ld s t ignoreCase) ∧
    (∀ n, ES (toBytes (lowerIf ignoreCase s)) (toBytes (lowerIf ignoreCase t)) n →
        ld s t ignoreCase ≤ n) := by
  have h : ld s t ignoreCase
      = lev (toBytes (lowerIf ignoreCase s)) (toBytes (lowerIf ignoreCase t)) :=
    ldList_eq_lev _ _
  refine ⟨h, ?_, ?_⟩
  · rw [h]
    exact lev_ES _ _
  · intro n hn
    rw [h]
    exact ES_lev_le hn

/-- Witness for claim C10: on `"ab"` and `"b"` (bytes `[97, 98]` and
`[98]`), the distance agrees with the reference definition and the
edit-script `delete 97, copy 98` of cost 1 bounds it. -/
theorem ld_eq_levenshtein_witness :
    ld "ab" "b" false ≤ 1 ∧
    ld "ab" "b" false = lev (toBytes "ab") (toBytes "b") := by
  constructor
  · have hb1 : toBytes (lowerIf false "ab") = [97, 98] := by decide
    have hb2 : toBytes (lowerIf false "b") = [98] := by decide
    refine (ld_eq_levenshtein "ab" "b" false).2.2 1 ?_
    rw [hb1, hb2]
    exact ES.del 97 (ES.copy 98 ES.nil)
  · exact (ld_eq_levenshtein "ab" "b" false).1

end Fuelcell
